import Mathlib

/-!
Shallow embedding of `sklearnext/over_sampling/base.py`
(`ExtendedBaseOverSampler._sample` and `_generate_classes_stats`).

Cell values and class labels are modelled as rationals (the Python code
stacks `X` and `y` into a single float dataframe).  The count entries of
the configured target ratio `ratio_` are modelled as integers.  The
pluggable `_partial_sample` strategy is a function parameter returning
`Except String`, so that mid-resample failures can be observed.  The
orchestrator `_sample` is modelled as `sample`, which returns both the
call result and the final value of the mutable `ratio_` field.
-/

/-- Decidable equality for `Except`, used to evaluate concrete runs. -/
def exceptDecEq {ε α : Type} [DecidableEq ε] [DecidableEq α] : DecidableEq (Except ε α) :=
  fun x y =>
    match x, y with
    | Except.ok a, Except.ok b =>
      if h : a = b then isTrue (congrArg Except.ok h)
      else isFalse (fun hc => h (Except.ok.inj hc))
    | Except.error a, Except.error b =>
      if h : a = b then isTrue (congrArg Except.error h)
      else isFalse (fun hc => h (Except.error.inj hc))
    | Except.ok _, Except.error _ => isFalse (fun hc => Except.noConfusion hc)
    | Except.error _, Except.ok _ => isFalse (fun hc => Except.noConfusion hc)

instance {ε α : Type} [DecidableEq ε] [DecidableEq α] : DecidableEq (Except ε α) :=
  exceptDecEq

/-- A cell value / class label (Python float). -/
abbrev Val := ℚ

/-- One feature row of the matrix `X`. -/
abbrev Row := List ℚ

/-- The `ratio_` mapping: label to number of samples to generate (dict order kept). -/
abbrev RatioMap := List (ℚ × ℤ)

/-- The pluggable `_partial_sample` collaborator: receives the currently set
target ratio, the numeric feature rows and labels of one group. -/
abbrev PS := RatioMap → List Row → List Val → Except String (List Row × List Val)

/-- `[label for label, n_samples in self.ratio_.items() if n_samples == 0][0]`:
first label whose configured increment is zero. -/
def findMajority (ratio : RatioMap) : Option Val :=
  (ratio.find? (fun p => decide (p.2 = 0))).map Prod.fst

/-- The categorical key of a row: the tuple of its categorical-column values. -/
def groupKey (cat : List ℕ) (r : Row) : List Val :=
  cat.map (fun c => r.getD c 0)

/-- The distinct group keys of the stacked dataframe, in first-occurrence order
(`df.groupby(categorical_cols)`). -/
def groupKeysOf (cat : List ℕ) (df : List (Row × Val)) : List (List Val) :=
  (df.map (fun p => groupKey cat p.1)).dedup

/-- The rows of one group: `pd.merge(df, key)` selects exactly the rows whose
categorical values equal the key. -/
def groupRows (cat : List ℕ) (df : List (Row × Val)) (kk : List Val) : List (Row × Val) :=
  df.filter (fun p => decide (groupKey cat p.1 = kk))

/-- The `include_group` part of `_generate_classes_stats`: any minority label
present in the group with `ir < imbalance_ratio_threshold` (and, when
`k_neighbors` is available, `n_samples > k_neighbors`). -/
def includeGroup (ys : List Val) (maj : Val) (t : ℚ) (k : Option ℕ) : Bool :=
  (ys.dedup.filter (fun l => decide (l ≠ maj))).any (fun l =>
    match k with
    | some kv => decide ((ys.count maj : ℚ) / (ys.count l : ℚ) < t) && decide (kv < ys.count l)
    | none => decide ((ys.count maj : ℚ) / (ys.count l : ℚ) < t))

/-- The `modified_imbalance_ratios` part of `_generate_classes_stats`:
`(majority_count + 1) / (n_samples + 1)` for each non-majority label present. -/
def modRatio (ys : List Val) (maj : Val) (l : Val) : Option ℚ :=
  if l ≠ maj ∧ l ∈ ys then
    some (((ys.count maj : ℚ) + 1) / ((ys.count l : ℚ) + 1))
  else none

/-- `ratio.get(label, np.nan)` over one group's modified imbalance ratios:
`none` plays the role of `NaN`. -/
def rawRatio (cat : List ℕ) (maj : Val) (df : List (Row × Val)) (kk : List Val) (l : Val) :
    Option ℚ :=
  modRatio ((groupRows cat df kk).map Prod.snd) maj l

/-- `label_weights.sum()`: pandas skips `NaN`, so undefined entries contribute 0. -/
def weightTotal (cat : List ℕ) (maj : Val) (df : List (Row × Val)) (keys : List (List Val))
    (l : Val) : ℚ :=
  (keys.map (fun kk => (rawRatio cat maj df kk l).getD 0)).sum

/-- `label_weights / label_weights.sum()`: the normalized weight of one
(group, label) pair; `NaN` entries stay `NaN` (`none`). -/
def weightOf (cat : List ℕ) (maj : Val) (df : List (Row × Val)) (keys : List (List Val))
    (kk : List Val) (l : Val) : Option ℚ :=
  (rawRatio cat maj df kk l).map (fun x => x / weightTotal cat maj df keys l)

/-- Python `int()` on a float: truncation toward zero. -/
def pyInt (q : ℚ) : ℤ :=
  if 0 ≤ q then ⌊q⌋ else -⌊-q⌋

/-- The per-group ratio set at the top of the loop:
`{label: (int(n_samples * weight[label]) if label != majority_label else n_samples) ...}`.
A `NaN` weight makes `int(...)` raise `ValueError`. -/
def groupRatio (initial : RatioMap) (maj : Val) (w : Val → Option ℚ) :
    Except String RatioMap :=
  match initial with
  | [] => Except.ok []
  | p :: rest =>
    match (if p.1 = maj then Except.ok p else
      match w p.1 with
      | some wv => Except.ok (p.1, pyInt ((p.2 : ℚ) * wv))
      | none => Except.error ("cannot convert float NaN to integer") :
        Except String (ℚ × ℤ)) with
    | Except.error e => Except.error e
    | Except.ok q =>
      match groupRatio rest maj w with
      | Except.error e => Except.error e
      | Except.ok qs => Except.ok (q :: qs)

/-- `np.round`: round half to even, as numpy does. -/
def roundHalfEven (q : ℚ) : ℤ :=
  if q - ⌊q⌋ < 1/2 then ⌊q⌋
  else if (1 : ℚ)/2 < q - ⌊q⌋ then ⌊q⌋ + 1
  else if 2 ∣ ⌊q⌋ then ⌊q⌋ else ⌊q⌋ + 1

/-- `X_resampled[:, integer_cols] = np.round(X_resampled[:, integer_cols]).astype(int)`
applied to one row. -/
def roundIntCols (ints : List ℕ) (r : Row) : Row :=
  (List.range r.length).map (fun j =>
    if j ∈ ints then ((roundHalfEven (r.getD j 0) : ℤ) : ℚ) else r.getD j 0)

/-- Drop the categorical columns of one row (`df_group.drop(columns=categorical_cols)`). -/
def stripCat (cat : List ℕ) (m : ℕ) (r : Row) : Row :=
  ((List.range m).filter (fun j => decide (j ∉ cat))).map (fun j => r.getD j 0)

/-- Reattach the constant categorical values to a resampled numeric row and
reorder to the original column order (`.loc[:, X_resampled.columns]`). -/
def reassemble (cat : List ℕ) (m : ℕ) (kk : List Val) (nr : Row) : Row :=
  (List.range m).map (fun j =>
    if j ∈ cat then kk.getD (cat.indexOf j) 0
    else nr.getD (((List.range m).filter (fun j2 => decide (j2 ∉ cat))).indexOf j) 0)

/-- The checks of `_sample` lines 100-118 for a present `integer_cols` list:
first failing check wins. -/
def validateSome (ints cats : List ℕ) (t : ℚ) (m : ℕ) : Option String :=
  if ints.isEmpty || !(ints.all (fun j => decide (j < m))) then
    some ("Parameter integer_cols should be a list or tuple in the valid range.")
  else if cats.isEmpty || !(cats.all (fun j => decide (j < m))) then
    some ("Parameter categorical_cols should be a list or tuple in the valid range.")
  else if ints.any (fun j => decide (j ∈ cats)) then
    some ("Parameters integer_cols and categorical_cols should not have common elements.")
  else if t ≤ 0 then
    some ("Parameter categorical_threshold should be a positive number.")
  else none

/-- The validation block of `_sample` (lines 100-118): `len(None)` raising
inside the `try` is folded into the same `ValueError` as the range check. -/
def validate (intsO : Option (List ℕ)) (cats : List ℕ) (t : ℚ) (m : ℕ) : Option String :=
  match intsO with
  | none => some ("Parameter integer_cols should be a list or tuple in the valid range.")
  | some ints => validateSome ints cats t m

/-- The included group keys, in group order (`classes_stats[boolean_mask]`). -/
def includedOf (cat : List ℕ) (t : ℚ) (k : Option ℕ) (maj : Val) (df : List (Row × Val)) :
    List (List Val) :=
  (groupKeysOf cat df).filter
    (fun kk => includeGroup ((groupRows cat df kk).map Prod.snd) maj t k)

/-- The rows of excluded groups (`pd.merge(df, excluded_groups)`). -/
def excludedOf (cat : List ℕ) (t : ℚ) (k : Option ℕ) (maj : Val) (df : List (Row × Val)) :
    List (Row × Val) :=
  df.filter (fun p =>
    !includeGroup ((groupRows cat df (groupKey cat p.1)).map Prod.snd) maj t k)

/-- The per-group loop of `_sample` (lines 154-173), threading the mutable
`ratio_` state: each iteration overwrites `ratio_` with the group-local ratio
and calls `_partial_sample`; an exception propagates with whatever `ratio_`
holds at that point. -/
def sampleLoop (ps : PS) (cat : List ℕ) (m : ℕ) (initial : RatioMap) (maj : Val)
    (df : List (Row × Val)) (w : List Val → Val → Option ℚ) :
    List (List Val) → RatioMap → Except String (List Row × List Val) × RatioMap
  | [], st => (Except.ok ([], []), st)
  | kk :: rest, st =>
    match groupRatio initial maj (w kk) with
    | Except.error e => (Except.error e, st)
    | Except.ok gr =>
      match ps gr ((groupRows cat df kk).map (fun p => stripCat cat m p.1))
          ((groupRows cat df kk).map Prod.snd) with
      | Except.error e => (Except.error e, gr)
      | Except.ok (Xr, yr) =>
        match sampleLoop ps cat m initial maj df w rest gr with
        | (Except.error e, st2) => (Except.error e, st2)
        | (Except.ok (Xs, ys), st2) =>
          (Except.ok (Xr.map (reassemble cat m kk) ++ Xs, yr ++ ys), st2)

/-- The `categorical_cols is not None` branch of `_sample`: validation,
grouping, weighting, the per-group loop, reassembly and integer rounding. -/
def sampleCat (intsO : Option (List ℕ)) (cat : List ℕ) (t : ℚ) (k : Option ℕ) (ps : PS)
    (ratio : RatioMap) (X : List Row) (y : List Val) :
    Except String (List Row × List Val) × RatioMap :=
  match validate intsO cat t ((X.headD []).length) with
    | some e => (Except.error e, ratio)
    | none =>
      match findMajority ratio with
      | none => (Except.error ("list index out of range"), ratio)
      | some maj =>
        match sampleLoop ps cat ((X.headD []).length) ratio maj (X.zip y)
            (weightOf cat maj (X.zip y) (includedOf cat t k maj (X.zip y)))
            (includedOf cat t k maj (X.zip y)) ratio with
        | (Except.error e, st) => (Except.error e, st)
        | (Except.ok (Xin, yin), _) =>
          (Except.ok
            ((Xin ++ (excludedOf cat t k maj (X.zip y)).map Prod.fst).map
              (roundIntCols (intsO.getD [])),
             yin ++ (excludedOf cat t k maj (X.zip y)).map Prod.snd),
           ratio)

/-- `ExtendedBaseOverSampler._sample`.  Returns the call result together with
the final value of the mutable `ratio_` field (which starts at `ratio`). -/
def sample (intsO catsO : Option (List ℕ)) (t : ℚ) (k : Option ℕ) (ps : PS)
    (ratio : RatioMap) (X : List Row) (y : List Val) :
    Except String (List Row × List Val) × RatioMap :=
  match catsO with
  | none => (ps ratio X y, ratio)
  | some cat => sampleCat intsO cat t k ps ratio X y

/-- Identity partial sampler (returns its input unchanged). -/
def psId : PS := fun _ Xg yg => Except.ok (Xg, yg)

/-- Partial sampler that always fails, to exercise mid-resample failures. -/
def psFail : PS := fun _ _ _ => Except.error ("boom")

/-- Concrete data: two groups, both included, shared minority label 1. -/
def ratioC1 : RatioMap := [(0, 0), (1, 10)]

def XC1 : List Row := [[10, 1], [10, 2], [10, 3], [20, 1], [20, 2], [20, 3]]

def yC1 : List Val := [0, 0, 1, 0, 0, 1]

/-- Concrete data: one included group that misses minority label 2. -/
def ratioC2 : RatioMap := [(0, 0), (1, 5), (2, 5)]

def XC2 : List Row := [[10, 1], [10, 2], [10, 3]]

def yC2 : List Val := [0, 0, 1]

/-- Concrete data: one included group (key 5) and one excluded group (key 7)
whose rows carry a fractional value in integer column 1. -/
def ratioW : RatioMap := [(0, 0), (1, 4)]

def XW : List Row := [[5, 1], [5, 2], [5, 3], [7, 23/10], [7, 4]]

def yW : List Val := [0, 0, 1, 0, 0]

def XoutW : List Row := [[5, 1], [5, 2], [5, 3], [7, 2], [7, 4]]

def youtW : List Val := [0, 0, 1, 0, 0]

section

attribute [local semireducible] Rat.mul Rat.inv Rat.add Rat.sub

theorem sum_map_div_eq (keys : List (List Val)) (f : List Val → ℚ) (T : ℚ) :
    (keys.map (fun kk => f kk / T)).sum = (keys.map f).sum / T := by
  induction keys with
  | nil => simp
  | cons a rest ih => simp [add_div, ih]

theorem sum_pos_of_mem (xs : List ℚ) (h0 : ∀ x ∈ xs, 0 ≤ x) (x : ℚ) (hx : x ∈ xs)
    (hpos : 0 < x) : 0 < xs.sum := by
  induction xs with
  | nil => cases hx
  | cons a rest ih =>
    rw [List.sum_cons]
    rcases List.mem_cons.mp hx with h | h
    · subst h
      exact add_pos_of_pos_of_nonneg hpos
        (List.sum_nonneg (fun b hb => h0 b (List.mem_cons_of_mem _ hb)))
    · exact add_pos_of_nonneg_of_pos (h0 a (List.mem_cons_self _ _))
        (ih (fun b hb => h0 b (List.mem_cons_of_mem _ hb)) h)

theorem rawRatio_pos (cat : List ℕ) (maj : Val) (df : List (Row × Val)) (kk : List Val)
    (l : Val) (x : ℚ) (hx : rawRatio cat maj df kk l = some x) : 0 < x := by
  unfold rawRatio modRatio at hx
  split at hx
  · have := (Option.some.inj hx).symm
    subst this
    apply div_pos <;> positivity
  · cases hx

theorem rawRatio_getD_nonneg (cat : List ℕ) (maj : Val) (df : List (Row × Val))
    (kk : List Val) (l : Val) : 0 ≤ (rawRatio cat maj df kk l).getD 0 := by
  cases hx : rawRatio cat maj df kk l with
  | none => simp
  | some x => simpa using le_of_lt (rawRatio_pos cat maj df kk l x hx)

theorem count_list_flatMap {α β : Type} [BEq α] (keys : List β) (f : β → List α)
    (p : α) :
    ((keys.flatMap f).count p) = (keys.map (fun kk => (f kk).count p)).sum := by
  induction keys with
  | nil => simp
  | cons a rest ih => simp [List.flatMap_cons, List.count_append, ih]

theorem count_filter_eq_ite {α : Type} [BEq α] [LawfulBEq α] (g : α → Bool) (l : List α)
    (p : α) :
    (l.filter g).count p = if g p = true then l.count p else 0 := by
  induction l with
  | nil => simp
  | cons q rest ih =>
    rw [List.filter_cons]
    by_cases hq : g q = true
    · rw [if_pos hq]
      by_cases hpq : p = q
      · subst hpq
        simp [List.count_cons, ih, hq]
      · simp [List.count_cons, ih, hpq]
    · rw [if_neg hq]
      by_cases hpq : p = q
      · subst hpq
        simp [List.count_cons, ih, hq]
      · simp [List.count_cons, ih, hpq]

theorem count_eq_ite_key {α κ : Type} [BEq α] [LawfulBEq α] [DecidableEq κ]
    (key : α → κ) (df : List α) (q : α) :
    (if key q ∈ (df.map key).dedup then df.count q else 0) = df.count q := by
  by_cases hq : q ∈ df
  · rw [if_pos (List.mem_dedup.mpr (List.mem_map.mpr ⟨q, hq, rfl⟩))]
  · rw [List.count_eq_zero.mpr hq]
    simp

theorem sum_map_ite_mem {κ : Type} [DecidableEq κ] (b : κ) (c : ℕ) (l : List κ)
    (hnd : l.Nodup) :
    (l.map (fun kk => if b = kk then c else 0)).sum = if b ∈ l then c else 0 := by
  induction l with
  | nil => simp
  | cons a rest ih =>
    rw [List.nodup_cons] at hnd
    by_cases hba : b = a
    · subst hba
      simp [hnd.1, ih hnd.2]
    · simp [hba, ih hnd.2, List.mem_cons]

theorem count_partition_key {α κ : Type} [BEq α] [LawfulBEq α] [DecidableEq κ]
    (key : α → κ) (df : List α) (q : α) :
    List.count q (((df.map key).dedup).flatMap
      (fun kk => df.filter (fun p => decide (key p = kk)))) = List.count q df := by
  rw [count_list_flatMap]
  simp only [count_filter_eq_ite, decide_eq_true_eq]
  rw [sum_map_ite_mem _ _ _ (List.nodup_dedup _)]
  exact count_eq_ite_key key df q


theorem weightOf_getD (cat : List ℕ) (maj : Val) (df : List (Row × Val))
    (keys : List (List Val)) (kk : List Val) (l : Val) :
    (weightOf cat maj df keys kk l).getD 0
      = (rawRatio cat maj df kk l).getD 0 / weightTotal cat maj df keys l := by
  cases hx : rawRatio cat maj df kk l with
  | none => simp [weightOf, hx]
  | some x => simp [weightOf, hx]

theorem groupRatio_char (initial : RatioMap) (maj : Val) (w : Val → Option ℚ) :
    groupRatio initial maj w =
      (if initial.all (fun p => decide (p.1 = maj) || (w p.1).isSome) then
        Except.ok (initial.map (fun p =>
          if p.1 = maj then p else (p.1, pyInt ((p.2 : ℚ) * (w p.1).getD 0))))
      else Except.error ("cannot convert float NaN to integer")) := by
  induction initial with
  | nil => rfl
  | cons p rest ih =>
    by_cases hm : p.1 = maj
    · by_cases hall : rest.all (fun p => decide (p.1 = maj) || (w p.1).isSome) = true
      · simp [groupRatio, ih, hm, hall]
      · simp [groupRatio, ih, hm, hall]
    · cases hw : w p.1 with
      | none => simp [groupRatio, ih, hm, hw]
      | some wv =>
        by_cases hall : rest.all (fun p => decide (p.1 = maj) || (w p.1).isSome) = true
        · simp [groupRatio, ih, hm, hw, hall]
        · simp [groupRatio, ih, hm, hw, hall]

theorem roundHalfEven_zero : roundHalfEven 0 = 0 := by
  norm_num [roundHalfEven]

theorem roundIntCols_length (ints : List ℕ) (r : Row) :
    (roundIntCols ints r).length = r.length := by
  simp [roundIntCols]

theorem roundIntCols_getD (ints : List ℕ) (r : Row) (j : ℕ) (hj : j ∈ ints) :
    (roundIntCols ints r).getD j 0 = ((roundHalfEven (r.getD j 0) : ℤ) : ℚ) := by
  by_cases hjr : j < r.length
  · rw [roundIntCols, List.getD_eq_getElem?_getD, List.getElem?_map, List.getElem?_range hjr]
    simp [hj]
  · rw [List.getD_eq_default _ _ (by rw [roundIntCols_length]; exact le_of_not_lt hjr),
        List.getD_eq_default _ _ (le_of_not_lt hjr), roundHalfEven_zero]
    norm_num

theorem getD_map_roundIntCols (ints : List ℕ) (l : List Row) (i : ℕ) :
    (l.map (roundIntCols ints)).getD i [] = roundIntCols ints (l.getD i []) := by
  by_cases hi : i < l.length
  · rw [List.getD_eq_getElem?_getD, List.getElem?_map, List.getD_eq_getElem?_getD]
    cases hx : l[i]? with
    | none => simp [List.getElem?_eq_none_iff] at hx; omega
    | some r => simp
  · rw [List.getD_eq_default _ _ (by rw [List.length_map]; exact le_of_not_lt hi),
        List.getD_eq_default _ _ (le_of_not_lt hi)]
    rfl

theorem sample_ok_destruct (intsO : Option (List ℕ)) (cat : List ℕ) (t : ℚ) (k : Option ℕ)
    (ps : PS) (ratio : RatioMap) (X : List Row) (y : List Val) (Xout : List Row)
    (yout : List Val)
    (hok : (sample intsO (some cat) t k ps ratio X y).1 = Except.ok (Xout, yout)) :
    ∃ maj Xin yin,
      findMajority ratio = some maj ∧
      Xout = (Xin ++ (excludedOf cat t k maj (X.zip y)).map Prod.fst).map
        (roundIntCols (intsO.getD [])) ∧
      yout = yin ++ (excludedOf cat t k maj (X.zip y)).map Prod.snd ∧
      (sample intsO (some cat) t k ps ratio X y).2 = ratio := by
  have hs : sample intsO (some cat) t k ps ratio X y
      = sampleCat intsO cat t k ps ratio X y := rfl
  rw [hs] at hok ⊢
  unfold sampleCat at hok ⊢
  cases hv : validate intsO cat t ((X.headD []).length) with
  | some e => simp only [hv] at hok; exact Except.noConfusion hok
  | none =>
    simp only [hv] at hok ⊢
    cases hm : findMajority ratio with
    | none => simp only [hm] at hok; exact Except.noConfusion hok
    | some maj =>
      simp only [hm] at hok ⊢
      cases hl : sampleLoop ps cat ((X.headD []).length) ratio maj (X.zip y)
          (weightOf cat maj (X.zip y) (includedOf cat t k maj (X.zip y)))
          (includedOf cat t k maj (X.zip y)) ratio with
      | mk r st =>
        simp only [hl] at hok ⊢
        cases r with
        | error e => simp at hok
        | ok pr =>
          cases pr with
          | mk Xin yin =>
            simp only [Except.ok.injEq, Prod.mk.injEq] at hok
            exact ⟨maj, Xin, yin, rfl, hok.1.symm, hok.2.symm, rfl⟩

/-- C1 (amended): after a call of `_sample` that returns successfully, the
configured target ratio `ratio_` equals its value before the call.  (The
original claim also asserted restoration after a failed call; the
counterexample shows a mid-resample failure of `_partial_sample` leaves
`ratio_` at the last group-local ratio.) -/
theorem c1_ratio_restored_on_ok (intsO catsO : Option (List ℕ)) (t : ℚ) (k : Option ℕ)
    (ps : PS) (ratio : RatioMap) (X : List Row) (y : List Val)
    (h : ∃ r, (sample intsO catsO t k ps ratio X y).1 = Except.ok r) :
    (sample intsO catsO t k ps ratio X y).2 = ratio := by
  cases catsO with
  | none => rfl
  | some cat =>
    obtain ⟨⟨Xout, yout⟩, hok⟩ := h
    obtain ⟨maj, Xin, yin, _, _, _, h2⟩ :=
      sample_ok_destruct intsO cat t k ps ratio X y Xout yout hok
    exact h2

/-- C1 witness: a concrete successful run with categorical columns configured,
whose final ratio equals the initial one. -/
theorem c1_ratio_restored_witness :
    (sample (some [1]) (some [0]) 3 none psId ratioW XW yW).2 = ratioW :=
  c1_ratio_restored_on_ok (some [1]) (some [0]) 3 none psId ratioW XW yW
    ⟨(XoutW, youtW), by decide⟩

/-- C1 counterexample: when `_partial_sample` raises on a group, the error
propagates and the configured ratio is NOT restored: it remains the group-local
ratio `[(0, 0), (1, 5)]` instead of the initial `[(0, 0), (1, 10)]`. -/
theorem c1_counterexample :
    (sample (some [1]) (some [0]) 3 none psFail ratioC1 XC1 yC1).1
      = Except.error ("boom") ∧
    (sample (some [1]) (some [0]) 3 none psFail ratioC1 XC1 yC1).2 ≠ ratioC1 := by
  decide

/-- C2 (amended): the group-local target ratio keeps the majority label's
configured entry unchanged and maps each minority label to
`int(n_samples * weight)` (truncation, which is `floor` for the nonnegative
weights that occur); when any minority label's weight is undefined (`NaN`),
building the ratio raises `ValueError` instead of defaulting to the current
count. -/
theorem c2_group_ratio_targets (initial : RatioMap) (maj : Val) (w : Val → Option ℚ) :
    groupRatio initial maj w =
      (if initial.all (fun p => decide (p.1 = maj) || (w p.1).isSome) then
        Except.ok (initial.map (fun p =>
          if p.1 = maj then p else (p.1, pyInt ((p.2 : ℚ) * (w p.1).getD 0))))
      else Except.error ("cannot convert float NaN to integer")) :=
  groupRatio_char initial maj w

/-- C2 counterexample: minority label 2 is in the configured ratio but absent
from the single (included) group, so its weight is `NaN` and the call raises
`ValueError` from `int(NaN)` instead of keeping label 2 at its current count. -/
theorem c2_counterexample :
    (sample (some [1]) (some [0]) 3 none psId ratioC2 XC2 yC2).1
      = Except.error ("cannot convert float NaN to integer") ∧
    (1 : Val) ∈ (groupRows [0] (XC2.zip yC2) [10]).map Prod.snd ∧
    ¬ (2 : Val) ∈ (groupRows [0] (XC2.zip yC2) [10]).map Prod.snd := by
  decide

/-- C3 (confirmed): with `categorical_cols` unset, `_sample` returns exactly the
result of `_partial_sample` on the whole dataset, and the ratio is untouched. -/
theorem c3_delegates_without_categorical (intsO : Option (List ℕ)) (t : ℚ)
    (k : Option ℕ) (ps : PS) (ratio : RatioMap) (X : List Row) (y : List Val) :
    sample intsO none t k ps ratio X y = (ps ratio X y, ratio) := rfl

/-- C4 (confirmed): a group is included iff SOME non-majority label present in
it has imbalance ratio below the threshold and, exactly when a neighbor count
is specified, a label count above it. -/
theorem c4_include_iff (ys : List Val) (maj : Val) (t : ℚ) (k : Option ℕ) :
    includeGroup ys maj t k = true ↔
      ∃ l, l ∈ ys ∧ l ≠ maj ∧ (ys.count maj : ℚ) / (ys.count l : ℚ) < t ∧
        (∀ kv, k = some kv → kv < ys.count l) := by
  cases k with
  | none => simp [includeGroup, List.any_eq_true, List.mem_filter, List.mem_dedup]
  | some kv => simp [includeGroup, List.any_eq_true, List.mem_filter, List.mem_dedup]

/-- C5 (confirmed): when at least one key in the weight table has a defined
modified imbalance ratio for a minority label, the weights over the keys sum
to exactly 1, and keys missing the label get an undefined weight. -/
theorem c5_weights_sum_to_one (cat : List ℕ) (maj : Val) (df : List (Row × Val))
    (keys : List (List Val)) (l : Val)
    (h : ∃ kk, kk ∈ keys ∧ (rawRatio cat maj df kk l).isSome = true) :
    (keys.map (fun kk => (weightOf cat maj df keys kk l).getD 0)).sum = 1 ∧
    ∀ kk, rawRatio cat maj df kk l = none → weightOf cat maj df keys kk l = none := by
  obtain ⟨kk0, hk0, hsome⟩ := h
  cases hx : rawRatio cat maj df kk0 l with
  | none => rw [hx] at hsome; cases hsome
  | some x =>
    have hxpos : 0 < x := rawRatio_pos cat maj df kk0 l x hx
    have hTpos : 0 < weightTotal cat maj df keys l := by
      unfold weightTotal
      refine sum_pos_of_mem _ ?_ ((rawRatio cat maj df kk0 l).getD 0)
        (List.mem_map.mpr ⟨kk0, hk0, rfl⟩) (by rw [hx]; simpa using hxpos)
      intro b hb
      obtain ⟨kk, _, hbe⟩ := List.mem_map.mp hb
      exact hbe ▸ rawRatio_getD_nonneg cat maj df kk l
    constructor
    · have hmap : keys.map (fun kk => (weightOf cat maj df keys kk l).getD 0)
          = keys.map (fun kk =>
              (rawRatio cat maj df kk l).getD 0 / weightTotal cat maj df keys l) :=
        List.map_congr_left (fun kk _ => weightOf_getD cat maj df keys kk l)
      rw [hmap, sum_map_div_eq]
      exact div_self hTpos.ne'
    · intro kk hkk
      simp [weightOf, hkk]

/-- C5 witness: the weight table of the concrete run, for minority label 1 over
the single included group key. -/
theorem c5_weights_witness :
    (([[(5:ℚ)]]).map
      (fun kk => (weightOf [0] 0 (XW.zip yW) [[(5:ℚ)]] kk 1).getD 0)).sum = 1 :=
  (c5_weights_sum_to_one [0] 0 (XW.zip yW) [[(5:ℚ)]] 1
    ⟨[5], by decide, by decide⟩).1

/-- C6 (confirmed): grouping by the categorical key is a partition: the groups
together are a permutation of the dataframe (no row dropped or duplicated), and
every row belongs to exactly one group key. -/
theorem c6_partition_total_disjoint (cat : List ℕ) (df : List (Row × Val))
    (p : Row × Val) (hp : p ∈ df) :
    ((groupKeysOf cat df).flatMap (groupRows cat df)).Perm df ∧
    ∃! kk, kk ∈ groupKeysOf cat df ∧ p ∈ groupRows cat df kk := by
  constructor
  · apply List.perm_iff_count.mpr
    intro q
    exact @count_partition_key (Row × Val) (List Val)
      (@instBEqOfDecidableEq (Row × Val) _) (@instLawfulBEq (Row × Val) _) _
      (fun p => groupKey cat p.1) df q
  · refine ⟨groupKey cat p.1, ⟨List.mem_dedup.mpr (List.mem_map.mpr ⟨p, hp, rfl⟩),
      List.mem_filter.mpr ⟨hp, by simp⟩⟩, ?_⟩
    rintro kk ⟨_, hk2⟩
    have h2 := (List.mem_filter.mp hk2).2
    simp only [decide_eq_true_eq] at h2
    exact h2.symm

/-- C6 witness: the partition facts at a concrete dataset and row. -/
theorem c6_partition_witness :
    ((groupKeysOf [0] (XW.zip yW)).flatMap (groupRows [0] (XW.zip yW))).Perm (XW.zip yW) ∧
    ∃! kk, kk ∈ groupKeysOf [0] (XW.zip yW) ∧
      ([5, 1], (0:ℚ)) ∈ groupRows [0] (XW.zip yW) kk :=
  c6_partition_total_disjoint [0] (XW.zip yW) ([5, 1], 0) (by decide)

/-- C7 (amended): every row of an excluded group appears in the output feature
matrix with its integer columns rounded (hence unchanged exactly when those
entries are already whole numbers), and its label appears in the output labels.
(The original claim said the row appears fully unchanged; the counterexample
shows the final integer-column rounding also rewrites excluded rows.) -/
theorem c7_excluded_rows_in_output (intsO : Option (List ℕ)) (cat : List ℕ) (t : ℚ)
    (k : Option ℕ) (ps : PS) (ratio : RatioMap) (X : List Row) (y : List Val)
    (maj : Val) (r : Row) (lbl : Val) (Xout : List Row) (yout : List Val)
    (hmaj : findMajority ratio = some maj)
    (hmem : (r, lbl) ∈ X.zip y)
    (hexc : includeGroup ((groupRows cat (X.zip y) (groupKey cat r)).map Prod.snd)
      maj t k = false)
    (hok : (sample intsO (some cat) t k ps ratio X y).1 = Except.ok (Xout, yout)) :
    roundIntCols (intsO.getD []) r ∈ Xout ∧ lbl ∈ yout := by
  obtain ⟨maj2, Xin, yin, hm2, hX, hY, _⟩ :=
    sample_ok_destruct intsO cat t k ps ratio X y Xout yout hok
  rw [hmaj] at hm2
  obtain rfl := Option.some.inj hm2
  have hrexc : (r, lbl) ∈ excludedOf cat t k maj (X.zip y) := by
    unfold excludedOf
    refine List.mem_filter.mpr ⟨hmem, ?_⟩
    simp [hexc]
  constructor
  · rw [hX]
    exact List.mem_map.mpr ⟨r, List.mem_append_right _
      (List.mem_map.mpr ⟨(r, lbl), hrexc, rfl⟩), rfl⟩
  · rw [hY]
    exact List.mem_append_right _ (List.mem_map.mpr ⟨(r, lbl), hrexc, rfl⟩)

/-- C7 witness: the concrete excluded row appears (rounded) in the output. -/
theorem c7_excluded_rows_witness :
    roundIntCols ((some [1] : Option (List ℕ)).getD []) [7, 23/10] ∈ XoutW ∧
    (0:ℚ) ∈ youtW :=
  c7_excluded_rows_in_output (some [1]) [0] 3 none psId ratioW XW yW 0 [7, 23/10] 0
    XoutW youtW (by decide) (by decide) (by decide) (by decide)

/-- C7 counterexample: the excluded row `[7, 2.3]` does NOT appear unchanged in
the output: integer column 1 is rounded, so the output contains `[7, 2]` and
not `[7, 2.3]`. -/
theorem c7_counterexample :
    (sample (some [1]) (some [0]) 3 none psId ratioW XW yW).1
      = Except.ok (XoutW, youtW) ∧
    ([7, 23/10], (0:ℚ)) ∈ XW.zip yW ∧
    includeGroup ((groupRows [0] (XW.zip yW) (groupKey [0] [7, 23/10])).map Prod.snd)
      0 3 none = false ∧
    ¬ [7, 23/10] ∈ XoutW := by
  decide

/-- C8 (confirmed): on a successful categorical run, the output feature matrix
is the pre-rounding matrix with every integer column rounded to the nearest
integer (half to even, as `np.round`), so every integer-column entry is a whole
number equal to the rounding of the corresponding pre-rounding value. -/
theorem c8_integer_cols_rounded (intsO : Option (List ℕ)) (cat : List ℕ) (t : ℚ)
    (k : Option ℕ) (ps : PS) (ratio : RatioMap) (X : List Row) (y : List Val)
    (Xout : List Row) (yout : List Val)
    (hok : (sample intsO (some cat) t k ps ratio X y).1 = Except.ok (Xout, yout)) :
    ∃ pre : List Row,
      Xout = pre.map (roundIntCols (intsO.getD [])) ∧
      ∀ i j : ℕ, j ∈ intsO.getD [] →
        (Xout.getD i []).getD j 0
          = ((roundHalfEven ((pre.getD i []).getD j 0) : ℤ) : ℚ) ∧
        ∃ z : ℤ, (Xout.getD i []).getD j 0 = (z : ℚ) := by
  obtain ⟨maj, Xin, yin, _, hX, _, _⟩ :=
    sample_ok_destruct intsO cat t k ps ratio X y Xout yout hok
  refine ⟨Xin ++ (excludedOf cat t k maj (X.zip y)).map Prod.fst, hX, ?_⟩
  intro i j hj
  have hgd : Xout.getD i []
      = roundIntCols (intsO.getD [])
          ((Xin ++ (excludedOf cat t k maj (X.zip y)).map Prod.fst).getD i []) := by
    rw [hX]
    exact getD_map_roundIntCols _ _ _
  rw [hgd, roundIntCols_getD _ _ _ hj]
  exact ⟨rfl, roundHalfEven _, rfl⟩

/-- C8 witness: the rounding relation holds on the concrete successful run. -/
theorem c8_integer_cols_witness :
    ∃ pre : List Row,
      XoutW = pre.map (roundIntCols ((some [1] : Option (List ℕ)).getD [])) ∧
      ∀ i j : ℕ, j ∈ ((some [1] : Option (List ℕ)).getD []) →
        (XoutW.getD i []).getD j 0
          = ((roundHalfEven ((pre.getD i []).getD j 0) : ℤ) : ℚ) ∧
        ∃ z : ℤ, (XoutW.getD i []).getD j 0 = (z : ℚ) :=
  c8_integer_cols_rounded (some [1]) [0] 3 none psId ratioW XW yW XoutW youtW
    (by decide)

/-- C9 (confirmed): with categorical columns configured, overlapping
`integer_cols`/`categorical_cols`, or a non-positive threshold, make the call
fail with a validation error raised before any resampling work: the result does
not depend on the partial sampler and the configured ratio is untouched. -/
theorem c9_validation_raises (ints cats : List ℕ) (t : ℚ) (k : Option ℕ)
    (ratio : RatioMap) (X : List Row) (y : List Val)
    (h : (∃ j, j ∈ ints ∧ j ∈ cats) ∨ t ≤ 0) :
    ∃ e, ∀ ps : PS,
      sample (some ints) (some cats) t k ps ratio X y = (Except.error e, ratio) := by
  have hv : ∃ e, validateSome ints cats t ((X.headD []).length) = some e := by
    unfold validateSome
    by_cases h1 : (ints.isEmpty
        || !(ints.all (fun j => decide (j < (X.headD []).length)))) = true
    · exact ⟨_, by rw [if_pos h1]⟩
    · by_cases h2 : (cats.isEmpty
          || !(cats.all (fun j => decide (j < (X.headD []).length)))) = true
      · exact ⟨_, by rw [if_neg h1, if_pos h2]⟩
      · by_cases h3 : (ints.any (fun j => decide (j ∈ cats))) = true
        · exact ⟨_, by rw [if_neg h1, if_neg h2, if_pos h3]⟩
        · have ht : t ≤ 0 := by
            rcases h with hover | hle
            · exfalso
              obtain ⟨j, hj1, hj2⟩ := hover
              exact h3 (List.any_eq_true.mpr ⟨j, hj1, by simpa using hj2⟩)
            · exact hle
          exact ⟨_, by rw [if_neg h1, if_neg h2, if_neg h3, if_pos ht]⟩
  obtain ⟨e, he⟩ := hv
  refine ⟨e, fun ps => ?_⟩
  show sampleCat (some ints) cats t k ps ratio X y = (Except.error e, ratio)
  unfold sampleCat
  have hval : validate (some ints) cats t ((X.headD []).length) = some e := he
  rw [hval]

/-- C9 witness: a concrete overlapping configuration fails for every sampler. -/
theorem c9_validation_witness :
    ∃ e, ∀ ps : PS,
      sample (some [0]) (some [0]) 1 none ps ([] : RatioMap) [] []
        = (Except.error e, ([] : RatioMap)) :=
  c9_validation_raises [0] [0] 1 none [] [] []
    (Or.inl ⟨0, by decide, by decide⟩)

/-- C10 (confirmed): with `categorical_cols` unset no validation happens at
all: the call delegates to the partial sampler even when the threshold is
non-positive or `integer_cols` is missing or empty. -/
theorem c10_no_validation_when_unset (intsO : Option (List ℕ)) (t : ℚ) (k : Option ℕ)
    (ps : PS) (ratio : RatioMap) (X : List Row) (y : List Val)
    (h : t ≤ 0 ∨ intsO = none ∨ intsO = some []) :
    sample intsO none t k ps ratio X y = (ps ratio X y, ratio) := rfl

/-- C10 witness: empty and non-positive configuration, still delegated. -/
theorem c10_no_validation_witness :
    sample (some []) none 0 none psId [] [] [] = (psId [] [] [], ([] : RatioMap)) :=
  c10_no_validation_when_unset (some []) 0 none psId [] [] [] (Or.inl le_rfl)

end
